import Mathlib

/-!
Verification of the `mk` build tool (a Go reimplementation of Plan 9 mk)
against its natural-language specification.

The Go sources are shallowly embedded: strings are `List Char` (the Go code
walks strings rune by rune via `utf8.DecodeRuneInString`, so one `Char` per
step is faithful for the scanning logic; Unicode character classes such as
`unicode.IsLetter` are modelled by their ASCII restriction, which covers every
input exercised here), Go maps are total functions into lists or `Option`,
mutation is explicit state passing, and loops that the Go code does not
obviously terminate are given fuel and return `Option` (`none` models
divergence or a runtime panic).
-/

namespace Mk

/-- Strings as lists of runes. -/
abbrev Str := List Char

/-- Model of Go's `utf8.DecodeRuneInString`: on a non-empty string it yields
the first rune and its width (one rune per step in this model); on the empty
string Go returns `(RuneError, 0)`, i.e. the replacement character `�`
with width `0`. -/
def decodeRune : Str → Char × Nat
  | [] => ('�', 0)
  | c :: _ => (c, 1)

/-- Model of Go's `input[i:j]` slice; `none` models the runtime panic raised
when `i > j` or `j > len(input)`. -/
def goSlice (l : Str) (i j : Nat) : Option Str :=
  if i ≤ j ∧ j ≤ l.length then some ((l.take j).drop i) else none

/-! ## Node status (graph.go, `nodeStatus`) -/

/-- `nodeStatus` from graph.go: Ready, Started, NoOp, Done, Failed. -/
inductive NodeStatus where
  | ready
  | started
  | nop
  | done
  | failed
deriving DecidableEq, Repr

/-! ## C1: staleness computation in `mkNode` (mk.go lines 233–254)

The Go code:
```
uptodate := true
if !e.r.attributes.virtual {
    u.updateTimestamp()
    if !u.exists && required {
        uptodate = false
    } else if u.exists || required {
        for i := range prereqs {
            if u.t.Before(prereqs[i].t) || prereqs[i].status == nodeStatusDone {
                uptodate = false
            }
        }
    } else if required {
        uptodate = false
    }
} else {
    uptodate = false
}
_, isrebuildtarget := rebuildtargets[u.name]
if isrebuildtarget || rebuildall {
    uptodate = false
}
```
Each prerequisite is modelled by its modification time (`Int`, with
`time.Time.Before` as `<`) together with its status after the prerequisite
pass. -/

/-- The `uptodate` flag computed by `mkNode`; the node is stale (its recipe is
a candidate to run) exactly when this is `false`. -/
def mkNodeUptodate (virtual uexists required : Bool) (ut : Int)
    (prereqs : List (Int × NodeStatus)) (isrebuildtarget rebuildall : Bool) : Bool :=
  let uptodate := true
  let uptodate :=
    if !virtual then
      if !uexists && required then false
      else if uexists || required then
        prereqs.foldl (fun acc p => if ut < p.1 ∨ p.2 = NodeStatus.done then false else acc)
          uptodate
      else if required then false
      else uptodate
    else false
  if isrebuildtarget || rebuildall then false else uptodate

/-- A `false` result is sticky in the staleness fold. -/
theorem foldl_sticky_false {α : Type} (p : α → Prop) [DecidablePred p] (l : List α) (b : Bool) :
    l.foldl (fun acc x => if p x then false else acc) b
      = (b && l.all fun x => !decide (p x)) := by
  induction l generalizing b with
  | nil => simp
  | cons x xs ih =>
    simp only [List.foldl_cons, List.all_cons]
    by_cases h : p x
    · rw [if_pos h, ih]
      simp [h]
    · rw [if_neg h, ih]
      simp [h]

/-- C1: the claim fails at equal timestamps. Target exists, is required, has
modification time `0`, and its single prerequisite also has modification time
`0` (so prereq mtime ≥ target mtime holds) with final status `NoOp`; the code
nevertheless reports the node up to date, because `time.Before` is a strict
comparison. -/
theorem c1_counterexample :
    mkNodeUptodate false true true 0 [(0, NodeStatus.nop)] false false = true ∧
    (∃ p ∈ [((0 : Int), NodeStatus.nop)], (0 : Int) ≤ p.1 ∨ p.2 = NodeStatus.done) := by
  constructor
  · rfl
  · exact ⟨(0, NodeStatus.nop), by simp⟩

/-- C1 (amended): for a non-virtual rule edge with neither force-rebuild flag
set: if the target does not exist and the node is required it is stale; and
when the target exists or the node is required (and the previous case does not
apply), the node is stale iff some prerequisite's modification time is
strictly greater than the target's or some prerequisite's final status is
`Done`. -/
theorem c1_staleness (uexists required : Bool) (ut : Int)
    (prereqs : List (Int × NodeStatus)) :
    (uexists = false → required = true →
      mkNodeUptodate false uexists required ut prereqs false false = false) ∧
    ((uexists || required) = true → ¬(uexists = false ∧ required = true) →
      (mkNodeUptodate false uexists required ut prereqs false false = false ↔
        ∃ p ∈ prereqs, ut < p.1 ∨ p.2 = NodeStatus.done)) := by
  constructor
  · intro he hr
    subst he; subst hr
    simp [mkNodeUptodate]
  · intro hor hnot
    have he : uexists = true := by
      cases uexists with
      | false =>
        cases required with
        | false => simp at hor
        | true => exact absurd ⟨rfl, rfl⟩ hnot
      | true => rfl
    subst he
    have hmk : mkNodeUptodate false true required ut prereqs false false
        = prereqs.foldl
            (fun acc p => if ut < p.1 ∨ p.2 = NodeStatus.done then false else acc) true := rfl
    rw [hmk, foldl_sticky_false (fun p : Int × NodeStatus => ut < p.1 ∨ p.2 = NodeStatus.done)]
    simp only [Bool.true_and]
    rw [show (prereqs.all fun x => !decide (ut < x.1 ∨ x.2 = NodeStatus.done)) = false
          ↔ ¬ (prereqs.all fun x => !decide (ut < x.1 ∨ x.2 = NodeStatus.done)) = true by
        cases prereqs.all fun x => !decide (ut < x.1 ∨ x.2 = NodeStatus.done) <;> simp]
    rw [List.all_eq_true]
    push_neg
    simp [or_iff_not_imp_left, not_lt]

/-- Witness for `c1_staleness` at a concrete input (missing required target is
stale; an existing target with one older prerequisite is stale iff that
prerequisite was just rebuilt). -/
theorem c1_staleness_witness :
    mkNodeUptodate false false true 0 [((-5 : Int), NodeStatus.nop)] false false = false ∧
    (mkNodeUptodate false true true 0 [((-5 : Int), NodeStatus.done)] false false = false ↔
      ∃ p ∈ [((-5 : Int), NodeStatus.done)], (0 : Int) < p.1 ∨ p.2 = NodeStatus.done) :=
  ⟨(c1_staleness false true 0 [((-5 : Int), NodeStatus.nop)]).1 rfl rfl,
   (c1_staleness true true 0 [((-5 : Int), NodeStatus.done)]).2 (by decide)
     (by intro h; exact absurd h.1 (by decide))⟩

/-! ## C2: node status transitions (mk.go, `mkNode` lines 181–200 and
`mkNodePrereqs` lines 143–153)

The code touches a node's status in exactly two places.

* The claim step (mk.go 181–188): under the node's mutex, if the status is
  neither `Ready` nor `NoOp` the invocation returns without changing anything;
  otherwise it sets the status to `Started`.
* The finish step (the deferred function, mk.go 191–200): the invocation that
  successfully claimed sets the status to `finalstatus`, sends that status to
  every channel in `u.listeners`, and truncates the listener list.
  `finalstatus` is initialised to `Done` and only ever reassigned to `NoOp`
  (mk.go 208, 280) or `Failed` (mk.go 270), so it ranges over the three
  terminal statuses.

`mkNodePrereqs` (mk.go 143–153) subscribes a channel by appending it to
`listeners` and spawns `mkNode` for prerequisites whose status is `Ready` or
`NoOp`.

The protocol is modelled as a state machine on one node: `holder` records
that a claimed invocation's deferred finish is still pending (so a `finish`
action is only available to the holder), and listener channels are named by
naturals. -/

/-- The values `finalstatus` can hold in `mkNode`. -/
inductive FinalStatus where
  | done
  | nop
  | failed
deriving DecidableEq, Repr

/-- Inclusion of `finalstatus` values into node statuses. -/
def FinalStatus.toStatus : FinalStatus → NodeStatus
  | .done => .done
  | .nop => .nop
  | .failed => .failed

/-- Node-local state: current status, whether a claimed `mkNode` invocation's
deferred finish is pending, and the subscribed listener channels. -/
structure NState where
  status : NodeStatus
  holder : Bool
  listeners : List Nat
deriving DecidableEq, Repr

/-- The actions the scheduler performs on one node's state. -/
inductive NAction where
  | claim
  | finish (f : FinalStatus)
  | subscribe (c : Nat)
deriving DecidableEq, Repr

/-- One atomic action on a node, returning the new state and the
notifications sent (channel, message). `claim` models mk.go 181–188 (a failed
claim is a no-op); `finish f` models the deferred function mk.go 191–200 and
is only available while a claim is pending; `subscribe c` models the
listener registration in mk.go 150. -/
def nstep (s : NState) : NAction → Option (NState × List (Nat × NodeStatus))
  | .claim =>
    if s.status = NodeStatus.ready ∨ s.status = NodeStatus.nop then
      some ({ s with status := NodeStatus.started, holder := true }, [])
    else
      some (s, [])
  | .finish f =>
    if s.holder then
      some ({ status := f.toStatus, holder := false, listeners := [] },
        s.listeners.map (fun c => (c, f.toStatus)))
    else
      none
  | .subscribe c =>
    some ({ s with listeners := s.listeners ++ [c] }, [])

/-- A freshly created node: status `Ready`, no pending invocation, no
listeners. -/
def ninit : NState := ⟨NodeStatus.ready, false, []⟩

/-- Run a list of actions from a state, ignoring notifications. -/
def nrun (s : NState) : List NAction → Option NState
  | [] => some s
  | a :: as =>
    match nstep s a with
    | none => none
    | some (s', _) => nrun s' as

/-- Protocol invariant: a pending claimed invocation implies the status is
`Started` (the claim set it, and only the pending finish can change it). -/
def NInv (s : NState) : Prop := s.holder = true → s.status = NodeStatus.started

/-- Every action preserves the protocol invariant. -/
theorem nstep_preserves_NInv (s : NState) (a : NAction) (s' : NState)
    (out : List (Nat × NodeStatus)) (h : nstep s a = some (s', out)) :
    NInv s → NInv s' := by
  intro hinv
  cases a with
  | claim =>
    by_cases hc : s.status = NodeStatus.ready ∨ s.status = NodeStatus.nop
    · simp only [nstep, if_pos hc] at h
      cases h.symm
      intro _; rfl
    · simp only [nstep, if_neg hc] at h
      cases h.symm
      exact hinv
  | finish f =>
    by_cases hh : s.holder
    · simp only [nstep, if_pos hh] at h
      cases h.symm
      intro hfalse; cases hfalse
    · simp only [nstep, if_neg hh] at h
      exact Option.noConfusion h
  | subscribe c =>
    simp only [nstep] at h
    cases h.symm
    exact hinv

/-- The invariant holds of a fresh node. -/
theorem ninit_NInv : NInv ninit := by intro h; cases h

/-- C2: a node that has reached `NoOp` is set to `Started` again. Concretely,
the action sequence claim, finish-`NoOp`, claim is executable from a fresh
node: after the first two actions the node's status is `NoOp`, and the third
action (the re-entry `mkNode` spawned for a `Ready`-or-`NoOp` prerequisite by
`mkNodePrereqs`) moves it back to `Started` — a `NoOp → Started` transition,
which the claim says never occurs. -/
theorem c2_counterexample :
    nrun ninit [NAction.claim, NAction.finish FinalStatus.nop]
      = some ⟨NodeStatus.nop, false, []⟩ ∧
    nstep ⟨NodeStatus.nop, false, []⟩ NAction.claim
      = some (⟨NodeStatus.started, true, []⟩, []) := by
  constructor <;> rfl

/-- C2 (amended): every status change is along `Ready → Started`,
`NoOp → Started`, or `Started → {Done, NoOp, Failed}`, and the terminal
transition notifies every subscribed listener exactly once (the notification
sequence sends the final status to exactly the subscribed channels, in order)
and clears the listener list. -/
theorem c2_transitions (s : NState) (a : NAction) (s' : NState)
    (out : List (Nat × NodeStatus)) (hinv : NInv s)
    (h : nstep s a = some (s', out)) :
    (s.status ≠ s'.status →
      (((s.status = NodeStatus.ready ∨ s.status = NodeStatus.nop) ∧
          s'.status = NodeStatus.started) ∨
        (s.status = NodeStatus.started ∧
          (s'.status = NodeStatus.done ∨ s'.status = NodeStatus.nop ∨
            s'.status = NodeStatus.failed)))) ∧
    (∀ f, a = NAction.finish f →
      out = s.listeners.map (fun c => (c, f.toStatus)) ∧
      out.map Prod.fst = s.listeners ∧ s'.listeners = []) := by
  cases a with
  | claim =>
    by_cases hc : s.status = NodeStatus.ready ∨ s.status = NodeStatus.nop
    · simp only [nstep, if_pos hc] at h
      cases h.symm
      refine ⟨fun _ => Or.inl ⟨hc, rfl⟩, fun f hf => by cases hf⟩
    · simp only [nstep, if_neg hc] at h
      cases h.symm
      exact ⟨fun hne => absurd rfl hne, fun f hf => by cases hf⟩
  | finish f =>
    by_cases hh : s.holder
    · simp only [nstep, if_pos hh] at h
      cases h.symm
      refine ⟨fun _ => Or.inr ⟨hinv hh, ?_⟩, fun g hg => ?_⟩
      · cases f <;> simp [FinalStatus.toStatus]
      · cases hg
        refine ⟨rfl, ?_, rfl⟩
        rw [List.map_map, show (Prod.fst ∘ fun c : Nat => (c, f.toStatus)) = id from rfl,
          List.map_id]
    · simp only [nstep, if_neg hh] at h
      exact Option.noConfusion h
  | subscribe c =>
    simp only [nstep] at h
    cases h.symm
    exact ⟨fun hne => absurd rfl hne, fun f hf => by cases hf⟩

/-- Witness for `c2_transitions`: the holder finishing with `Failed` on a node
with one listener makes a legal `Started → Failed` transition. -/
theorem c2_transitions_witness :
    ((NodeStatus.started = NodeStatus.ready ∨ NodeStatus.started = NodeStatus.nop) ∧
        NodeStatus.failed = NodeStatus.started) ∨
      (NodeStatus.started = NodeStatus.started ∧
        (NodeStatus.failed = NodeStatus.done ∨ NodeStatus.failed = NodeStatus.nop ∨
          NodeStatus.failed = NodeStatus.failed)) :=
  (c2_transitions ⟨NodeStatus.started, true, [7]⟩ (NAction.finish FinalStatus.failed)
    ⟨NodeStatus.failed, false, []⟩ [(7, NodeStatus.failed)] (by intro _; rfl) rfl).1
    (by decide)

/-! ## The expander (expand.go)

`expand`, `expandSigil`, `expandRecipeSigils` and `expandSuffixes` are
embedded below.  Go byte indices become rune indices (all scanning is done
rune by rune in the source).  The Go regular expressions are embedded as the
deterministic matchers they denote:

* `namelist_pattern` = `^\s*([^:]+)\s*:\s*([^%]*)%([^=]*)\s*=\s*([^%]*)%([^%]*)\s*`
  (expand.go 185) is `namelistMatch` below.  Since every quantifier is greedy,
  each group is forced: group 1 is everything before the first `:` minus a
  maximal whitespace prefix (with one whitespace character handed back if the
  group would otherwise be empty), group 2 runs from after the `:` (leading
  whitespace stripped) to the first `%`, group 3 to the next `=`, group 4
  (leading whitespace stripped) to the next `%`, and group 5 is the maximal
  `%`-free run after it; the pattern is not anchored on the right.
* `^\Q<a>\E(.*)\Q<b>\E$` (expand.go 210) is `stemMatch` below: `v` matches
  iff it has prefix `a` and, after it, suffix `b`; the single group is the
  middle.
-/

/-- A word as the Lean list of its runes. -/
def word (s : String) : Str := s.toList

/-- Go's `strings.IndexAny`/`IndexRune`: position of the first character
satisfying the predicate, if any. -/
def goIndex (p : Char → Bool) : Str → Option Nat
  | [] => none
  | c :: cs => if p c then some 0 else (goIndex p cs).map (· + 1)

/-- Go regexp's `\s` class: `[\t\n\f\r ]`. -/
def goIsSpace (c : Char) : Bool :=
  c == ' ' || c == '\t' || c == '\n' || c == '\x0C' || c == '\r'

/-- `unicode.IsLetter`, restricted to ASCII. -/
def goIsLetter (c : Char) : Bool := c.isAlpha

/-- `unicode.IsDigit`, restricted to ASCII. -/
def goIsDigit (c : Char) : Bool := c.isDigit

/-- Loop body of `isValidVarName` (rules.go 199–208); `first` tracks `i == 0`.
Note the Go function returns `true` on the empty string. -/
def isValidVarNameLoop : Str → Bool → Bool
  | [], _ => true
  | c :: cs, first =>
    if (first ∧ ¬(goIsLetter c ∨ c = '_')) ∨ ¬(goIsLetter c ∨ goIsDigit c ∨ c = '_') then
      false
    else
      isValidVarNameLoop cs false

/-- `isValidVarName` from rules.go. -/
def isValidVarName (v : Str) : Bool := isValidVarNameLoop v true

/-- The variable map `map[string][]string`: `none` models a missing key. -/
abbrev Vars := Str → Option (List Str)

/-- The matcher denoted by `^\Q<a>\E(.*)\Q<b>\E$` (expand.go 210): the
capture group, if `v` is `a` followed by anything followed by `b`. -/
def stemMatch (a b v : Str) : Option Str :=
  if a.isPrefixOf v ∧ b.isSuffixOf (v.drop a.length) then
    some ((v.drop a.length).take (v.length - a.length - b.length))
  else none

/-- The matcher denoted by the `namelist_pattern` regular expression
(expand.go 185), returning the five submatches (name, A, B, C, D). -/
def namelistMatch (input : Str) : Option (Str × Str × Str × Str × Str) :=
  let pre := input.takeWhile (fun c => c != ':')
  if pre.length = input.length then none
  else if pre.length = 0 then none
  else
    let ws := pre.takeWhile goIsSpace
    let name := if ws.length = pre.length then [pre.getLastD ' '] else pre.drop ws.length
    let rest1 := input.drop (pre.length + 1)
    let a2 := rest1.takeWhile (fun c => c != '%')
    if a2.length = rest1.length then none
    else
      let a := a2.drop (a2.takeWhile goIsSpace).length
      let rest2 := rest1.drop (a2.length + 1)
      let b := rest2.takeWhile (fun c => c != '=')
      if b.length = rest2.length then none
      else
        let rest3 := rest2.drop (b.length + 1)
        let c2 := rest3.takeWhile (fun c => c != '%')
        if c2.length = rest3.length then none
        else
          let cpart := c2.drop (c2.takeWhile goIsSpace).length
          let rest4 := rest3.drop (c2.length + 1)
          let d := rest4.takeWhile (fun c => c != '%')
          some (name, a, b, cpart, d)

/-- The per-value substitution loop of the namelist branch (expand.go
211–219): matching values are rewritten to `C<group>D`, others kept. -/
def namelistApply (a b c d : Str) (values : List Str) : List Str :=
  values.map (fun v =>
    match stemMatch a b v with
    | some m => c ++ m ++ d
    | none => v)

/-- The common tail of `expandSigil` (expand.go 244–253): a bound valid name
expands to its values, an unbound valid name is kept verbatim
(`"$" + input[:offset]`), an invalid name keeps the whole rest verbatim. -/
def sigilTail (input : Str) (vars : Vars) (varname : Str) (offset : Nat) :
    List Str × Nat :=
  if isValidVarName varname then
    match vars varname with
    | some varvals => (varvals, offset)
    | none => (['$' :: input.take offset], offset)
  else
    (['$' :: input], input.length)

/-- The bare-identifier scan of `expandSigil` (expand.go 226–234): `j` counts
accepted runes; digits are accepted except in the first position. -/
def identLoop : Str → Nat → Nat
  | [], j => j
  | c :: cs, j =>
    if goIsLetter c ∨ c = '_' ∨ (0 < j ∧ goIsDigit c) then identLoop cs (j + 1) else j

/-- Length of the identifier prefix scanned by `expandSigil`. -/
def identScanLen (input : Str) : Nat := identLoop input 0

/-- `expandSigil` from expand.go (lines 181–254).  `input` is the text
following the `$` sigil.  Returns the replacement parts and the number of
runes consumed.  Note the `$$` branch returns offset `2` although only one
rune of `input` (the second `$`) belongs to the sigil. -/
def expandSigil (input : Str) (vars : Vars) : List Str × Nat :=
  let cw := decodeRune input
  let c := cw.1
  let w := cw.2
  if c = '$' then
    ([['$']], 2)
  else if c = '{' then
    match goIndex (fun ch => ch == '}') (input.drop w) with
    | none => (['$' :: input], input.length)
    | some j =>
      let varname := (input.drop w).take j
      let offset := w + j + 1
      match namelistMatch varname with
      | some (nm, a, b, cc, d) =>
        if isValidVarName nm then
          match vars nm with
          | none => ([], offset)
          | some values => (namelistApply a b cc d values, offset)
        else sigilTail input vars varname offset
      | none => sigilTail input vars varname offset
  else
    let j := identScanLen input
    if 0 < j then sigilTail input vars (input.take j) j
    else (['$' :: input], input.length)

/-- `strings.Join(parts, " ")`. -/
def joinSpace : List Str → Str
  | [] => []
  | [s] => s
  | s :: ss => s ++ ' ' :: joinSpace ss

/-- `expandEscape` (expand.go 132–138). -/
def expandEscape (input : Str) : Str × Nat :=
  let cw := decodeRune input
  if cw.1 = '\t' ∨ cw.1 = ' ' then ([cw.1], cw.2) else (['\\', cw.1], cw.2)

/-- `expandSingleQuoted` (expand.go 172–178). -/
def expandSingleQuoted (input : Str) : Str × Nat :=
  match goIndex (fun c => c == '\'') input with
  | none => (input, input.length)
  | some j => (input.take j, j + 1)

mutual

/-- The scanning loop of `expand` (expand.go 57–129).  `bq` abstracts
`expandBackQuoted` (a subprocess execution followed by word lexing, both
external).  Faithful details: in the backtick case with backticks disabled
the code appends the *entire* original input (line 99, `out = input`) and
consumes to the end; the `$$` sigil result consumes one rune too many. -/
def expandLoop (fuel : Nat) (input : Str) (vars : Vars) (bt : Bool)
    (bq : Str → List Str × Nat) (i : Nat) (parts : List Str) (expanded : Str) :
    Option (List Str) :=
  match fuel with
  | 0 => none
  | fuel + 1 =>
    if i ≥ input.length then
      some (if 0 < expanded.length then parts ++ [expanded] else parts)
    else
      match goIndex (fun c => c == '"' || c == '\'' || c == '`' || c == '$' || c == '\\')
          (input.drop i) with
      | none => some (
          let expanded := expanded ++ input.drop i
          if 0 < expanded.length then parts ++ [expanded] else parts)
      | some jr =>
        let j := jr + i
        let expanded := expanded ++ (input.drop i).take jr
        let cw := decodeRune (input.drop j)
        let c := cw.1
        let i := j + cw.2
        if c = '\\' then
          let oo := expandEscape (input.drop i)
          expandLoop fuel input vars bt bq (i + oo.2) parts (expanded ++ oo.1)
        else if c = '"' then
          match expandDoubleQuotedLoop fuel (input.drop i) vars bt bq 0 with
          | none => none
          | some oo => expandLoop fuel input vars bt bq (i + oo.2) parts (expanded ++ oo.1)
        else if c = '\'' then
          let oo := expandSingleQuoted (input.drop i)
          expandLoop fuel input vars bt bq (i + oo.2) parts (expanded ++ oo.1)
        else if c = '`' then
          if bt then
            let oo := bq (input.drop i)
            match oo.1 with
            | [] => expandLoop fuel input vars bt bq (i + oo.2) parts expanded
            | o0 :: orest =>
              let op := (expanded ++ o0) :: orest
              expandLoop fuel input vars bt bq (i + oo.2) (parts ++ op.dropLast)
                (op.getLastD [])
          else
            expandLoop fuel input vars bt bq (i + input.length) parts (expanded ++ input)
        else if c = '$' then
          let oo := expandSigil (input.drop i) vars
          match oo.1 with
          | [] => expandLoop fuel input vars bt bq (i + oo.2) parts expanded
          | [o0] => expandLoop fuel input vars bt bq (i + oo.2) parts (expanded ++ o0)
          | o0 :: o1 :: orest =>
            expandLoop fuel input vars bt bq (i + oo.2)
              (parts ++ [expanded ++ o0] ++ (o1 :: orest).dropLast)
              ((o1 :: orest).getLastD [])
        else
          expandLoop fuel input vars bt bq i parts expanded

/-- The loop of `expandDoubleQuoted` (expand.go 141–169), including its
faithful misfeatures: each iteration assigns the *relative* `IndexAny` result
back to `j`, and the closing-quote branch returns `input[:j]` (which includes
the quote) and an offset one rune past it. -/
def expandDoubleQuotedLoop (fuel : Nat) (input : Str) (vars : Vars) (bt : Bool)
    (bq : Str → List Str × Nat) (j : Nat) : Option (Str × Nat) :=
  match fuel with
  | 0 => none
  | fuel + 1 =>
    match goIndex (fun c => c == '"' || c == '\\') (input.drop j) with
    | none => some (input, input.length)
    | some jr =>
      let j := jr
      let cw := decodeRune (input.drop j)
      let j := j + cw.2
      if cw.1 = '"' then
        match expandLoop fuel (input.take j) vars bt bq 0 [] [] with
        | none => none
        | some ps => some (joinSpace ps, j + cw.2)
      else if cw.1 = '\\' then
        if j + cw.2 < input.length then
          let j := j + cw.2
          let cw2 := decodeRune (input.drop j)
          expandDoubleQuotedLoop fuel input vars bt bq (j + cw2.2)
        else
          some (input, input.length)
      else
        expandDoubleQuotedLoop fuel input vars bt bq j

end

/-- `expand` (expand.go 57): run the scanning loop on a whole word with
generous fuel (each iteration consumes at least one rune except where the Go
code itself diverges). -/
def expand (input : Str) (vars : Vars) (bt : Bool) (bq : Str → List Str × Nat) :
    Option (List Str) :=
  expandLoop ((input.length + 2) * (input.length + 2)) input vars bt bq 0 [] []

/-- A dummy backtick oracle for calls with backtick expansion disabled. -/
def noBq : Str → List Str × Nat := fun s => ([], s.length)

/-- The loop of `expandRecipeSigils` (expand.go 284–314). -/
def expandRecipeLoop (fuel : Nat) (input : Str) (vars : Vars) (i : Nat)
    (expanded : Str) : Option Str :=
  match fuel with
  | 0 => none
  | fuel + 1 =>
    if i ≥ input.length then some expanded
    else
      match goIndex (fun c => c == '$' || c == '\\') (input.drop i) with
      | none => some (expanded ++ input.drop i)
      | some off =>
        let expanded := expanded ++ (input.drop i).take off
        let i := i + off
        let cw := decodeRune (input.drop i)
        if cw.1 = '$' then
          let i := i + cw.2
          let ek := expandSigil (input.drop i) vars
          expandRecipeLoop fuel input vars (i + ek.2) (expanded ++ joinSpace ek.1)
        else if cw.1 = '\\' then
          let i := i + cw.2
          let cw2 := decodeRune (input.drop i)
          if cw2.1 = '$' then
            expandRecipeLoop fuel input vars (i + cw2.2) (expanded ++ ['$'])
          else
            expandRecipeLoop fuel input vars (i + cw2.2) (expanded ++ ['\\', cw2.1])
        else
          expandRecipeLoop fuel input vars i expanded

/-- `expandRecipeSigils` (expand.go 284): every iteration advances, so fuel
`length + 1` always suffices. -/
def expandRecipeSigils (input : Str) (vars : Vars) : Option Str :=
  expandRecipeLoop (input.length + 1) input vars 0 []

/-- The loop of `expandSuffixes` (expand.go 317–342), faithful to the source:
the `IndexAny` result `j` is relative to `input[i:]` but is then used as an
absolute index (`input[j:]`, `input[i:j]`); `input[i:j]` with `j < i` is a
runtime panic (`goSlice` returns `none`); and in the backslash branch with a
non-`%` follower the loop variable is not advanced, so the Go loop spins
forever (fuel exhaustion, `none`). -/
def expandSuffixesLoop (fuel : Nat) (input stem : Str) (i : Nat) (acc : Str) :
    Option Str :=
  match fuel with
  | 0 => none
  | fuel + 1 =>
    if i ≥ input.length then some acc
    else
      match goIndex (fun c => c == '\\' || c == '%') (input.drop i) with
      | none => some (acc ++ input.drop i)
      | some j =>
        let cw := decodeRune (input.drop j)
        match goSlice input i j with
        | none => none
        | some seg =>
          let acc := acc ++ seg
          if cw.1 = '%' then
            expandSuffixesLoop fuel input stem (j + cw.2) (acc ++ stem)
          else
            let j := j + cw.2
            let cw2 := decodeRune (input.drop j)
            if cw2.1 = '%' then
              expandSuffixesLoop fuel input stem (j + cw2.2) (acc ++ ['%'])
            else
              expandSuffixesLoop fuel input stem i acc

/-- `expandSuffixes` (expand.go 317). -/
def expandSuffixes (input stem : Str) : Option Str :=
  expandSuffixesLoop (input.length + 1) input stem 0 []

/-- Modelled from the spec (§4.3): `expand_suffix(template, stem)` replaces
every unescaped `%` with `stem`; `\%` yields a literal `%`; everything else
is kept.  Used only to exhibit the divergence of the source from the spec. -/
def expandSuffixesSpec (stem : Str) : Str → Str
  | [] => []
  | '\\' :: '%' :: rest => '%' :: expandSuffixesSpec stem rest
  | '%' :: rest => stem ++ expandSuffixesSpec stem rest
  | c :: rest => c :: expandSuffixesSpec stem rest

/-! ## C6: `expandSuffixes` against the spec -/

/-- C6: `expandSuffixes` does not replace every unescaped `%`.  On the
template `%x%` with stem `s` the source yields `s%` (the relative `IndexAny`
result is used as an absolute index, so the `x` is dropped and the second `%`
is treated as the follower of a backslash), while the spec's substitution
yields `sxs`. -/
theorem c6_expandSuffixes_bug :
    expandSuffixes (word "%x%") (word "s") = some (word "s%") ∧
    expandSuffixesSpec (word "s") (word "%x%") = word "sxs" ∧
    word "s%" ≠ word "sxs" := by
  refine ⟨rfl, rfl, by decide⟩

/-! ## C7: `$$` in `expand` and `expandRecipeSigils` -/

/-- C7: the `$$` escape consumes one rune too many.  `expandSigil` is always
called on the text *after* the leading `$`, yet its `$$` branch returns
offset `2`, so the rune following the second `$` is swallowed: expanding the
word `a$$b` yields `a$` (not `a$b`), and likewise in recipe expansion. -/
theorem c7_dollar_dollar_swallows :
    expandSigil (word "$b") (fun _ => none) = ([word "$"], 2) ∧
    expand (word "a$$b") (fun _ => none) false noBq = some [word "a$"] ∧
    expandRecipeSigils (word "a$$b") (fun _ => none) = some (word "a$") ∧
    word "a$" ≠ word "a$b" := by
  refine ⟨rfl, rfl, rfl, by decide⟩

/-! ## C8: unbound variable references -/

/-- C8: the namelist form with an unbound name is *not* kept verbatim — it
expands to nothing.  Expanding the word `${X:a%b=c%d}` with `X` unbound
produces the empty word list, not the literal reference. -/
theorem c8_counterexample :
    expand (word "${X:a%b=c%d}") (fun _ => none) false noBq = some [] ∧
    ([] : List Str) ≠ [word "${X:a%b=c%d}"] := by
  refine ⟨rfl, by decide⟩

/-! ### List helpers for the symbolic `expandSigil` lemmas -/

/-- `takeWhile` stops exactly at the first failing element. -/
theorem takeWhile_append_stop (p : Char → Bool) (l1 l2 : Str) (c : Char)
    (h1 : ∀ x ∈ l1, p x = true) (hc : p c = false) :
    (l1 ++ c :: l2).takeWhile p = l1 := by
  induction l1 with
  | nil => simp [List.takeWhile_cons, hc]
  | cons a l ih =>
    have ha : p a = true := h1 a (by simp)
    simp only [List.cons_append, List.takeWhile_cons, ha, if_true]
    rw [ih (fun x hx => h1 x (by simp [hx]))]

/-- `takeWhile` keeps a list all of whose elements satisfy the predicate. -/
theorem takeWhile_all (p : Char → Bool) (l : Str) (h : ∀ x ∈ l, p x = true) :
    l.takeWhile p = l := by
  induction l with
  | nil => rfl
  | cons a l ih =>
    have ha : p a = true := h a (by simp)
    simp only [List.takeWhile_cons, ha, if_true]
    rw [ih (fun x hx => h x (by simp [hx]))]

/-- Dropping past a distinguished element. -/
theorem drop_append_succ (l1 l2 : Str) (c : Char) :
    (l1 ++ c :: l2).drop (l1.length + 1) = l2 := by
  induction l1 with
  | nil => simp
  | cons a l ih => simp [ih]

/-- `goIndex` finds the first satisfying element. -/
theorem goIndex_append_first (p : Char → Bool) (l1 l2 : Str) (c : Char)
    (h1 : ∀ x ∈ l1, p x = false) (hc : p c = true) :
    goIndex p (l1 ++ c :: l2) = some l1.length := by
  induction l1 with
  | nil => simp [goIndex, hc]
  | cons a l ih =>
    have ha : p a = false := h1 a (by simp)
    simp only [List.cons_append, goIndex, ha, Bool.false_eq_true, if_false]
    rw [show (l.append (c :: l2)) = l ++ c :: l2 from rfl,
      ih (fun x hx => h1 x (by simp [hx]))]
    rfl

/-! ### Facts about valid variable names -/

/-- The head of a valid variable name is a letter or `_`. -/
theorem isValidVarName_head (c : Char) (cs : Str)
    (h : isValidVarName (c :: cs) = true) : goIsLetter c ∨ c = '_' := by
  by_cases hcond : ((True ∧ ¬(goIsLetter c ∨ c = '_')) ∨ ¬(goIsLetter c ∨ goIsDigit c ∨ c = '_'))
  · exfalso
    have : isValidVarName (c :: cs) = false := by
      simp only [isValidVarName, isValidVarNameLoop]
      rw [if_pos]
      simpa using hcond
    rw [this] at h
    cases h
  · push_neg at hcond
    by_contra hne
    exact absurd (hcond.1 trivial) hne

/-- Every rune accepted by the `isValidVarName` loop is a letter, digit, or
`_`. -/
theorem isValidVarNameLoop_mem (v : Str) :
    ∀ (first : Bool), isValidVarNameLoop v first = true →
      ∀ c ∈ v, goIsLetter c ∨ goIsDigit c ∨ c = '_' := by
  induction v with
  | nil => intro _ _ c hc; cases hc
  | cons a l ih =>
    intro first hloop c hc
    by_cases hcond : ((first = true ∧ ¬(goIsLetter a ∨ a = '_')) ∨
        ¬(goIsLetter a ∨ goIsDigit a ∨ a = '_'))
    · exfalso
      have : isValidVarNameLoop (a :: l) first = false := by
        simp only [isValidVarNameLoop]
        rw [if_pos]
        exact hcond
      rw [this] at hloop
      cases hloop
    · push_neg at hcond
      rcases List.mem_cons.mp hc with rfl | hmem
      · exact hcond.2
      · have htail : isValidVarNameLoop l false = true := by
          have : isValidVarNameLoop (a :: l) first = isValidVarNameLoop l false := by
            simp only [isValidVarNameLoop]
            rw [if_neg]
            intro hx
            rcases hx with ⟨hf, hnl⟩ | hnall
            · exact hnl (hcond.1 hf)
            · exact hnall hcond.2
          rw [← this]; exact hloop
        exact ih false htail c hmem

/-- Every rune of a valid variable name is a letter, digit, or `_`. -/
theorem isValidVarName_mem (v : Str) (h : isValidVarName v = true) :
    ∀ c ∈ v, goIsLetter c ∨ goIsDigit c ∨ c = '_' :=
  isValidVarNameLoop_mem v true h

/-- A letter-digit-underscore rune is not one of the structural characters. -/
theorem goodChar_ne (c : Char) (h : goIsLetter c ∨ goIsDigit c ∨ c = '_')
    (d : Char) (hd : goIsLetter d = false ∧ goIsDigit d = false ∧ d ≠ '_') :
    c ≠ d := by
  intro he
  subst he
  rcases h with h | h | h
  · rw [hd.1] at h; cases h
  · rw [hd.2.1] at h; cases h
  · exact hd.2.2 h

/-- A letter or `_` is not regexp whitespace. -/
theorem goIsSpace_eq_false_of_head (c : Char) (h : goIsLetter c ∨ c = '_') :
    goIsSpace c = false := by
  cases hgs : goIsSpace c
  · rfl
  · exfalso
    simp only [goIsSpace, Bool.or_eq_true, beq_iff_eq] at hgs
    rcases h with h | h
    · rcases hgs with (((rfl | rfl) | rfl) | rfl) | rfl <;> exact absurd h (by decide)
    · subst h
      rcases hgs with (((h' | h') | h') | h') | h' <;> exact absurd h' (by decide)

/-- A letter-or-underscore head is not a sigil-special character. -/
theorem head_ne_of_good (c : Char) (h : goIsLetter c ∨ c = '_') (d : Char)
    (hd : goIsLetter d = false ∧ d ≠ '_') : c ≠ d := by
  intro he
  subst he
  rcases h with h | h
  · rw [hd.1] at h; cases h
  · exact hd.2 h

/-- Taking just past a distinguished element. -/
theorem take_append_succ (l1 l2 : Str) (c : Char) :
    (l1 ++ c :: l2).take (l1.length + 1) = l1 ++ [c] := by
  induction l1 with
  | nil => simp
  | cons a l ih => simp [ih]

/-- The `namelist_pattern` matcher on a well-formed `name:A%B=C%D` body
recovers exactly the five components. -/
theorem namelistMatch_decomp (nm A B C D : Str)
    (hne : nm ≠ []) (hval : isValidVarName nm = true)
    (hA1 : ∀ x ∈ A, x ≠ '%') (hA2 : A.takeWhile goIsSpace = [])
    (hB : ∀ x ∈ B, x ≠ '=')
    (hC1 : ∀ x ∈ C, x ≠ '%') (hC2 : C.takeWhile goIsSpace = [])
    (hD : ∀ x ∈ D, x ≠ '%') :
    namelistMatch (nm ++ ':' :: (A ++ '%' :: (B ++ '=' :: (C ++ '%' :: D))))
      = some (nm, A, B, C, D) := by
  obtain ⟨c0, nm', rfl⟩ : ∃ c0 nm', nm = c0 :: nm' := by
    cases nm with
    | nil => exact absurd rfl hne
    | cons a l => exact ⟨a, l, rfl⟩
  have hmemnm := isValidVarName_mem _ hval
  have hhead := isValidVarName_head _ _ hval
  have hnmcol : ∀ x ∈ c0 :: nm', (x != ':') = true := fun x hx => by
    simpa [bne_iff_ne] using goodChar_ne x (hmemnm x hx) ':' (by decide)
  have hpre : ((c0 :: nm') ++ ':' :: (A ++ '%' :: (B ++ '=' :: (C ++ '%' :: D)))).takeWhile
      (fun c => c != ':') = c0 :: nm' :=
    takeWhile_append_stop (fun c => c != ':') (c0 :: nm')
      (A ++ '%' :: (B ++ '=' :: (C ++ '%' :: D))) ':' hnmcol (by decide)
  have hA1' : ∀ x ∈ A, (x != '%') = true := fun x hx => by
    simpa [bne_iff_ne] using hA1 x hx
  have hB' : ∀ x ∈ B, (x != '=') = true := fun x hx => by
    simpa [bne_iff_ne] using hB x hx
  have hC1' : ∀ x ∈ C, (x != '%') = true := fun x hx => by
    simpa [bne_iff_ne] using hC1 x hx
  have hD' : ∀ x ∈ D, (x != '%') = true := fun x hx => by
    simpa [bne_iff_ne] using hD x hx
  have hsp0 : goIsSpace c0 = false := goIsSpace_eq_false_of_head c0 hhead
  have hws : (c0 :: nm').takeWhile goIsSpace = [] := by
    simp [List.takeWhile_cons, hsp0]
  have ha2 : (A ++ '%' :: (B ++ '=' :: (C ++ '%' :: D))).takeWhile (fun c => c != '%') = A :=
    takeWhile_append_stop (fun c => c != '%') A (B ++ '=' :: (C ++ '%' :: D)) '%'
      hA1' (by decide)
  have hb : (B ++ '=' :: (C ++ '%' :: D)).takeWhile (fun c => c != '=') = B :=
    takeWhile_append_stop (fun c => c != '=') B (C ++ '%' :: D) '=' hB' (by decide)
  have hc2 : (C ++ '%' :: D).takeWhile (fun c => c != '%') = C :=
    takeWhile_append_stop (fun c => c != '%') C D '%' hC1' (by decide)
  have hd : D.takeWhile (fun c => c != '%') = D := takeWhile_all _ _ hD'
  simp only [namelistMatch, hpre]
  rw [drop_append_succ, ha2, drop_append_succ, hb, drop_append_succ, hc2,
    drop_append_succ, hd, hws, hA2, hC2]
  rw [if_neg (by simp [List.length_append]; try omega)]
  rw [if_neg (by simp)]
  rw [if_neg (by simp [List.length_append]; try omega)]
  rw [if_neg (by simp [List.length_append]; try omega)]
  rw [if_neg (by simp [List.length_append]; try omega)]
  rw [if_neg (by simp)]
  simp only [List.length_nil, List.drop_zero]

/-- `namelistMatch` fails on a body with no colon. -/
theorem namelistMatch_none_of_no_colon (l : Str) (h : ∀ x ∈ l, x ≠ ':') :
    namelistMatch l = none := by
  have hl : l.takeWhile (fun c => c != ':') = l :=
    takeWhile_all _ _ (fun x hx => by simpa [bne_iff_ne] using h x hx)
  simp [namelistMatch, hl]

/-- `stemMatch a b` succeeds with group `m` exactly on `a ++ m ++ b`: the
matcher of `^\Qa\E(.*)\Qb\E$`. -/
theorem stemMatch_iff (a b v m : Str) :
    stemMatch a b v = some m ↔ v = a ++ m ++ b := by
  constructor
  · intro h
    by_cases hc : a.isPrefixOf v ∧ b.isSuffixOf (v.drop a.length)
    swap
    · simp only [stemMatch] at h
      rw [if_neg hc] at h
      cases h
    · simp only [stemMatch] at h
      rw [if_pos hc] at h
      obtain ⟨t, ht⟩ : a <+: v := List.isPrefixOf_iff_prefix.mp hc.1
      obtain ⟨s, hs⟩ : b <:+ v.drop a.length := List.isSuffixOf_iff_suffix.mp hc.2
      have hdrop : v.drop a.length = t := by rw [← ht, List.drop_left]
      rw [hdrop] at hs h
      have hlen : v.length - a.length - b.length = s.length := by
        rw [← ht, ← hs]
        simp [List.length_append]
      rw [hlen] at h
      have htake : t.take s.length = s := by rw [← hs, List.take_left]
      rw [htake] at h
      cases h
      rw [← ht, ← hs, List.append_assoc]
  · rintro rfl
    have hdrop : (a ++ m ++ b).drop a.length = m ++ b := by
      rw [List.append_assoc, List.drop_left]
    have hpre : a.isPrefixOf (a ++ m ++ b) :=
      List.isPrefixOf_iff_prefix.mpr ⟨m ++ b, by rw [List.append_assoc]⟩
    have hsuf : b.isSuffixOf ((a ++ m ++ b).drop a.length) := by
      rw [hdrop]
      exact List.isSuffixOf_iff_suffix.mpr ⟨m, rfl⟩
    simp only [stemMatch]
    rw [if_pos ⟨hpre, hsuf⟩, hdrop]
    have hlen : (a ++ m ++ b).length - a.length - b.length = m.length := by
      simp [List.length_append]
    rw [hlen, List.take_left]

/-- Reduction of `expandSigil` on a brace form with well-bracketed body. -/
theorem expandSigil_braced (body rest : Str) (vars : Vars)
    (hbr : ∀ x ∈ body, x ≠ '}') :
    expandSigil ('{' :: (body ++ '}' :: rest)) vars
      = match namelistMatch body with
        | some (nm, a, b, cc, d) =>
          if isValidVarName nm then
            match vars nm with
            | none => ([], body.length + 2)
            | some values => (namelistApply a b cc d values, body.length + 2)
          else sigilTail ('{' :: (body ++ '}' :: rest)) vars body (body.length + 2)
        | none => sigilTail ('{' :: (body ++ '}' :: rest)) vars body (body.length + 2) := by
  have hidx : goIndex (fun ch => ch == '}') (body ++ '}' :: rest) = some body.length :=
    goIndex_append_first _ _ _ _
      (fun x hx => by simpa using hbr x hx) (by decide)
  have hoff : 1 + body.length + 1 = body.length + 2 := by omega
  simp only [expandSigil, decodeRune, List.drop_succ_cons, List.drop_zero, hidx,
    List.take_left, hoff]
  rw [if_neg (by decide), if_pos trivial]

/-- Reduction of `expandSigil` on a bare unbound identifier. -/
theorem expandSigil_bare_unbound (nm rest : Str) (vars : Vars)
    (hval : isValidVarName nm = true) (hne : nm ≠ [])
    (hstop : ∀ c, rest.head? = some c → ¬(goIsLetter c ∨ goIsDigit c ∨ c = '_'))
    (hvars : vars nm = none) :
    expandSigil (nm ++ rest) vars = (['$' :: nm], nm.length) := by
  obtain ⟨c0, nm', rfl⟩ : ∃ c0 nm', nm = c0 :: nm' := by
    cases nm with
    | nil => exact absurd rfl hne
    | cons a l => exact ⟨a, l, rfl⟩
  have hhead := isValidVarName_head _ _ hval
  have hlen : identScanLen ((c0 :: nm') ++ rest) = (c0 :: nm').length := by
    have hall : ∀ c ∈ nm', goIsLetter c ∨ goIsDigit c ∨ c = '_' := fun c hc =>
      isValidVarName_mem _ hval c (by simp [hc])
    have hrun : ∀ (l2 : Str) (j : Nat), 0 < j →
        (∀ c ∈ l2, goIsLetter c ∨ goIsDigit c ∨ c = '_') →
        identLoop (l2 ++ rest) j = j + l2.length := by
      intro l2
      induction l2 with
      | nil =>
        intro j hj _
        cases hr : rest with
        | nil => simp [identLoop]
        | cons c cs =>
          have := hstop c (by rw [hr]; rfl)
          simp only [List.nil_append, hr, identLoop]
          rw [if_neg]
          · simp
          · rintro (h | h | ⟨_, h⟩)
            · exact this (Or.inl h)
            · exact this (Or.inr (Or.inr h))
            · exact this (Or.inr (Or.inl h))
      | cons a l ih =>
        intro j hj hall2
        simp only [List.cons_append, identLoop, List.append_eq]
        rw [if_pos]
        · rw [ih (j + 1) (by omega) (fun c hc => hall2 c (by simp [hc]))]
          simp only [List.length_cons]
          omega
        · rcases hall2 a (by simp) with h | h | h
          · exact Or.inl h
          · exact Or.inr (Or.inr ⟨hj, h⟩)
          · exact Or.inr (Or.inl h)
    show identLoop ((c0 :: nm') ++ rest) 0 = _
    simp only [List.cons_append, identLoop, List.append_eq]
    rw [if_pos]
    · rw [show (0 : Nat) + 1 = 1 from rfl, hrun nm' 1 (by omega) hall]
      simp only [List.length_cons]
      omega
    · rcases hhead with h | h
      · exact Or.inl h
      · exact Or.inr (Or.inl h)
  have h1 : c0 ≠ '$' := head_ne_of_good c0 hhead '$' (by decide)
  have h2 : c0 ≠ '{' := head_ne_of_good c0 hhead '{' (by decide)
  simp only [expandSigil, List.cons_append, decodeRune]
  rw [if_neg h1, if_neg h2]
  show (if 0 < identScanLen (c0 :: (nm' ++ rest)) then _ else _) = _
  rw [show (c0 :: (nm' ++ rest)) = (c0 :: nm') ++ rest from rfl, hlen]
  rw [if_pos (by simp)]
  simp only [sigilTail, List.take_left, hval, if_true]
  rw [hvars]

/-- A variable map binding `X` to the single value `a1b`. -/
def varsWS : Vars := fun n => if n = word "X" then some [word "a1b"] else none

/-- C5: the pieces `A` and `C` are *not* taken literally when they begin with
whitespace: the `namelist_pattern`'s greedy `\s*` after the `:` and after the
`=` strips it.  For the word `${X: a%b=c%d}` (so `A = " a"`, `B = "b"`,
`C = "c"`, `D = "d"` under the claim's reading) with `X` bound to the single
value `a1b`, the claim says the value does not match `^\Q a\E(.*)\Qb\E$`
(second conjunct) and is therefore kept unchanged, yet the code matches it
against the stripped `^\Qa\E(.*)\Qb\E$` and rewrites it to `c1d`. -/
theorem c5_counterexample :
    expand (word "${X: a%b=c%d}") varsWS false noBq = some [word "c1d"] ∧
    stemMatch (word " a") (word "b") (word "a1b") = none ∧
    word "c1d" ≠ word "a1b" := by
  refine ⟨rfl, rfl, by decide⟩

/-- C5 (amended): for `A` and `C` without leading whitespace (the regex's
greedy `\s*` strips any, so the code would otherwise match against the
stripped `A` and rewrite with the stripped `C`), expanding `${name:A%B=C%D}`
with `name` bound maps each value of the variable independently and in
order: a value of the shape `A ++ m ++ B` (the matcher of `^\QA\E(.*)\QB\E$`,
with `A`, `B` literal) is rewritten to `C ++ m ++ D`, any other value is
kept, and the result has exactly as many values as the variable.  The
remaining hypotheses state that `A%B=C%D` is the decomposition the syntax
denotes (no stray `%`, `=`, `}` in the pieces). -/
theorem c5_namelist_subst (nm A B C D rest : Str) (vars : Vars) (values : List Str)
    (hne : nm ≠ []) (hval : isValidVarName nm = true)
    (hA1 : ∀ x ∈ A, x ≠ '%') (hA2 : A.takeWhile goIsSpace = [])
    (hB : ∀ x ∈ B, x ≠ '=')
    (hC1 : ∀ x ∈ C, x ≠ '%') (hC2 : C.takeWhile goIsSpace = [])
    (hD : ∀ x ∈ D, x ≠ '%')
    (hbr : ∀ x ∈ nm ++ ':' :: (A ++ '%' :: (B ++ '=' :: (C ++ '%' :: D))), x ≠ '}')
    (hbound : vars nm = some values) :
    expandSigil
        ('{' :: ((nm ++ ':' :: (A ++ '%' :: (B ++ '=' :: (C ++ '%' :: D)))) ++ '}' :: rest))
        vars
      = (namelistApply A B C D values,
         (nm ++ ':' :: (A ++ '%' :: (B ++ '=' :: (C ++ '%' :: D)))).length + 2) ∧
    (namelistApply A B C D values).length = values.length ∧
    (∀ v m, stemMatch A B v = some m ↔ v = A ++ m ++ B) := by
  refine ⟨?_, by simp [namelistApply], fun v m => stemMatch_iff A B v m⟩
  rw [expandSigil_braced _ rest vars hbr]
  rw [namelistMatch_decomp nm A B C D hne hval hA1 hA2 hB hC1 hC2 hD]
  simp only [hval, if_true, hbound]

/-- The mkfile example `X = foo.c bar.c baz.h`. -/
def varsX : Vars := fun n =>
  if n = word "X" then some [word "foo.c", word "bar.c", word "baz.h"] else none

/-- Witness for `c5_namelist_subst`: `${X:%.c=%.o}` with
`X = foo.c bar.c baz.h` expands to `foo.o bar.o baz.h`. -/
theorem c5_namelist_subst_witness :
    expandSigil (word "{X:%.c=%.o}") varsX
      = ([word "foo.o", word "bar.o", word "baz.h"], 11) := by
  have h := c5_namelist_subst (word "X") [] (word ".c") [] (word ".o") [] varsX
    [word "foo.c", word "bar.c", word "baz.h"]
    (by decide) (by decide) (by decide) (by decide) (by decide) (by decide) (by decide)
    (by decide) (by decide) rfl
  exact h.1.trans (by decide)

/-- C8 (amended): an unbound `$name` or `${name}` reference is kept verbatim,
but the namelist form `${name:A%B=C%D}` with `name` unbound expands to the
empty list — the reference is removed, not kept. -/
theorem c8_unbound_references (vars : Vars) :
    (∀ (nm rest : Str), isValidVarName nm = true → nm ≠ [] →
      (∀ c, rest.head? = some c → ¬(goIsLetter c ∨ goIsDigit c ∨ c = '_')) →
      vars nm = none →
      expandSigil (nm ++ rest) vars = (['$' :: nm], nm.length)) ∧
    (∀ (nm rest : Str), isValidVarName nm = true → (∀ x ∈ nm, x ≠ ':') →
      (∀ x ∈ nm, x ≠ '}') → vars nm = none →
      expandSigil ('{' :: (nm ++ '}' :: rest)) vars
        = (['$' :: '{' :: (nm ++ ['}'])], nm.length + 2)) ∧
    (∀ (nm A B C D rest : Str), nm ≠ [] → isValidVarName nm = true →
      (∀ x ∈ A, x ≠ '%') → A.takeWhile goIsSpace = [] →
      (∀ x ∈ B, x ≠ '=') →
      (∀ x ∈ C, x ≠ '%') → C.takeWhile goIsSpace = [] →
      (∀ x ∈ D, x ≠ '%') →
      (∀ x ∈ nm ++ ':' :: (A ++ '%' :: (B ++ '=' :: (C ++ '%' :: D))), x ≠ '}') →
      vars nm = none →
      expandSigil
          ('{' :: ((nm ++ ':' :: (A ++ '%' :: (B ++ '=' :: (C ++ '%' :: D)))) ++ '}' :: rest))
          vars
        = ([], (nm ++ ':' :: (A ++ '%' :: (B ++ '=' :: (C ++ '%' :: D)))).length + 2)) := by
  refine ⟨?_, ?_, ?_⟩
  · intro nm rest hval hne hstop hvars
    exact expandSigil_bare_unbound nm rest vars hval hne hstop hvars
  · intro nm rest hval hcol hbr hvars
    rw [expandSigil_braced nm rest vars hbr]
    rw [namelistMatch_none_of_no_colon nm hcol]
    simp only [sigilTail, hval, if_true, hvars]
    rw [show nm.length + 2 = (nm.length + 1) + 1 from rfl, List.take_succ_cons,
      take_append_succ]
  · intro nm A B C D rest hne hval hA1 hA2 hB hC1 hC2 hD hbr hvars
    rw [expandSigil_braced _ rest vars hbr]
    rw [namelistMatch_decomp nm A B C D hne hval hA1 hA2 hB hC1 hC2 hD]
    simp only [hval, if_true, hvars]

/-- The empty variable map. -/
def noVars : Vars := fun _ => none

/-- Witness for `c8_unbound_references`: `$name` and `${name}` are kept
verbatim, `${X:a%b=c%d}` is erased. -/
theorem c8_unbound_references_witness :
    expandSigil (word "name") noVars = ([word "$name"], 4) ∧
    expandSigil (word "{name}x") noVars = ([word "${name}"], 6) ∧
    expandSigil (word "{X:a%b=c%d}") noVars = ([], 11) := by
  obtain ⟨h1, h2, h3⟩ := c8_unbound_references noVars
  refine ⟨?_, ?_, ?_⟩
  · exact (h1 (word "name") [] (by decide) (by decide)
      (fun c hc => by cases hc) rfl).trans (by decide)
  · exact (h2 (word "name") (word "x") (by decide) (by decide) (by decide) rfl).trans
      (by decide)
  · exact (h3 (word "X") (word "a") (word "b") (word "c") (word "d") [] (by decide)
      (by decide) (by decide) (by decide) (by decide) (by decide) (by decide) (by decide)
      (by decide) rfl).trans (by decide)

/-! ## Rules and rule sets (rules.go) -/

/-- A target or prerequisite pattern (rules.go 76–80).  A compiled regular
expression (`*regexp.Regexp`) is embedded as its submatch function:
`FindStringSubmatch` returning `none` for no match. -/
structure MkPattern where
  isSuffix : Bool
  spat : Str
  rpat : Option (Str → Option (List Str))

/-- `pattern.match` (rules.go 84–94). -/
def MkPattern.matchTarget (p : MkPattern) (target : Str) : Option (List Str) :=
  match p.rpat with
  | some r => r target
  | none => if target = p.spat then some [] else none

/-- A rule (rules.go 97–107), restricted to the fields read by `add`,
`applyrules` and `ambiguous`: target patterns, prerequisite templates, the
interpreter argv (`shell`), the recipe text, the meta flag and the `R`
attribute. -/
structure MkRule where
  targets : List MkPattern
  prereqs : List Str
  shell : List Str
  recipe : Str
  isMeta : Bool
  attrRegex : Bool

instance : Inhabited MkRule := ⟨⟨[], [], [], [], false, false⟩⟩

/-- `equivRecipe` (rules.go 110–126): identical recipe text and identical
interpreter argv (the Go loop over `shell` is elementwise list equality). -/
def MkRule.equivRecipe (r1 r2 : MkRule) : Bool :=
  r1.recipe == r2.recipe && r1.shell == r2.shell

/-- A rule set (rules.go 129–134); the literal-target index `targetRules` is
the Go map, total with default `[]` (Go's `append` on a missing key starts
from the nil slice). -/
structure RuleSetM where
  rules : List MkRule
  targetRules : Str → List Nat

/-- `add` (rules.go 188–197): append the rule and index it at `spat` for
every target pattern whose compiled regex is nil. -/
def RuleSetM.add (rs : RuleSetM) (r : MkRule) : RuleSetM :=
  let rules' := rs.rules ++ [r]
  let k := rules'.length - 1
  { rules := rules',
    targetRules := r.targets.foldl
      (fun tr p =>
        match p.rpat with
        | none => fun n => if n = p.spat then tr n ++ [k] else tr n
        | some _ => tr)
      rs.targetRules }

/-- The empty rule set. -/
def emptyRuleSetM : RuleSetM := { rules := [], targetRules := fun _ => [] }

/-! ## C9: the `-p` flag (mk.go 318–332) and the subprocess semaphore
(mk.go 71–98) -/

/-- The command-line options of `main` with their `flag` defaults
(mk.go 325–331). -/
structure MkOptions where
  mkfilepath : Str
  dryrun : Bool
  shallowrebuild : Bool
  rebuildall : Bool
  subprocsAllowed : Nat
  interactive : Bool
  quiet : Bool
deriving DecidableEq, Repr

/-- The options when no flag is given (each `flag.*Var` default). -/
def mkDefaultOptions : MkOptions :=
  { mkfilepath := word "mkfile", dryrun := false, shallowrebuild := false,
    rebuildall := false, subprocsAllowed := 4, interactive := false, quiet := false }

/-- `-p N` (mk.go 329) sets `subprocsAllowed`. -/
def setFlagP (opts : MkOptions) (n : Nat) : MkOptions := { opts with subprocsAllowed := n }

/-- A recipe reserving (`reserveSubproc`, mk.go 83–90; blocked — no step —
unless `subprocsRunning < subprocsAllowed`) or releasing (`finishSubproc`,
mk.go 93–98) a subprocess slot. -/
inductive SubprocAction where
  | reserve
  | finish
deriving DecidableEq, Repr

/-- The semaphore counter transition. -/
def subprocStep (allowed running : Nat) : SubprocAction → Option Nat
  | .reserve => if running < allowed then some (running + 1) else none
  | .finish => some (running - 1)

/-- C9: `-p` sets the concurrency bound enforced by the subprocess semaphore,
but its default is 4, not 8 (the repository's own README documents 8).  At
the default, a fourth concurrent recipe gets the last slot and a fifth is
blocked. -/
theorem c9_parallel_default :
    mkDefaultOptions.subprocsAllowed = 4 ∧
    mkDefaultOptions.subprocsAllowed ≠ 8 ∧
    (setFlagP mkDefaultOptions 8).subprocsAllowed = 8 ∧
    subprocStep mkDefaultOptions.subprocsAllowed 3 SubprocAction.reserve = some 4 ∧
    subprocStep mkDefaultOptions.subprocsAllowed 4 SubprocAction.reserve = none := by
  refine ⟨rfl, by decide, rfl, rfl, rfl⟩

/-! ## C10: the literal-target index invariant of `add` -/

/-- The invariant: `targetRules` maps a name `n` to a rule index `k` only if
rule `k` exists and has a target pattern with no compiled regex whose literal
string equals `n`.  Suffix and regex meta-patterns carry a compiled regex
(`rpat.isSome`), so they are never admitted by this index. -/
def targetRulesInv (rs : RuleSetM) : Prop :=
  ∀ n k, k ∈ rs.targetRules n →
    ∃ r, rs.rules.get? k = some r ∧ ∃ p ∈ r.targets, p.rpat.isNone ∧ p.spat = n

/-- Membership in the index built by `add`'s fold comes either from the old
index or from a nil-regex target of the new rule. -/
theorem add_fold_mem (k : Nat) (targets : List MkPattern) (tr : Str → List Nat)
    (n : Str) (k' : Nat)
    (hmem : k' ∈ (targets.foldl (fun tr p =>
        match p.rpat with
        | none => fun n => if n = p.spat then tr n ++ [k] else tr n
        | some _ => tr) tr) n) :
    k' ∈ tr n ∨ (k' = k ∧ ∃ p ∈ targets, p.rpat.isNone ∧ p.spat = n) := by
  induction targets generalizing tr with
  | nil => exact Or.inl hmem
  | cons p ps ih =>
    simp only [List.foldl_cons] at hmem
    rcases ih _ hmem with h | ⟨rfl, q, hq, h1, h2⟩
    · cases hp : p.rpat with
      | none =>
        rw [hp] at h
        simp only at h
        by_cases hn : n = p.spat
        · rw [if_pos hn] at h
          rcases List.mem_append.mp h with h' | h'
          · exact Or.inl h'
          · have : k' = k := by simpa using h'
            exact Or.inr ⟨this, p, by simp, by simp [hp], hn.symm⟩
        · rw [if_neg hn] at h
          exact Or.inl h
      | some f =>
        rw [hp] at h
        exact Or.inl h
    · exact Or.inr ⟨rfl, q, by simp [hq], h1, h2⟩

/-- C10: `add` — the only operation that inserts rules — preserves the
literal-target index invariant: only patterns with no compiled regex are
indexed, under their literal string; meta-rule patterns (which carry a
compiled regex) never enter the index. -/
theorem c10_add_preserves_inv (rs : RuleSetM) (r : MkRule)
    (h : targetRulesInv rs) : targetRulesInv (rs.add r) := by
  intro n k hk
  have hk' := add_fold_mem ((rs.rules ++ [r]).length - 1) r.targets rs.targetRules n k hk
  rcases hk' with hold | ⟨rfl, p, hp, h1, h2⟩
  · obtain ⟨r', hr', p, hp, h1, h2⟩ := h n k hold
    refine ⟨r', ?_, p, hp, h1, h2⟩
    have hlt : k < rs.rules.length := by
      by_contra hge
      rw [List.get?_eq_none.mpr (by omega)] at hr'
      cases hr'
    show (rs.rules ++ [r]).get? k = some r'
    rw [List.get?_append hlt]
    exact hr'
  · refine ⟨r, ?_, p, hp, h1, h2⟩
    have hlen : (rs.rules ++ [r]).length - 1 = rs.rules.length := by
      simp
    rw [hlen]
    show (rs.rules ++ [r]).get? rs.rules.length = some r
    rw [List.get?_concat_length]

/-- A concrete rule for the witnesses. -/
def c10rule : MkRule :=
  { targets := [⟨false, word "a", none⟩], prereqs := [], shell := [],
    recipe := word "r", isMeta := false, attrRegex := false }

/-- Witness for `c10_add_preserves_inv`: adding a literal rule to the empty
rule set preserves the invariant (which holds vacuously of the empty set),
and the new rule is indexed at its literal target. -/
theorem c10_add_preserves_inv_witness :
    targetRulesInv (emptyRuleSetM.add c10rule) ∧
    (emptyRuleSetM.add c10rule).targetRules (word "a") = [0] :=
  ⟨c10_add_preserves_inv emptyRuleSetM c10rule
      (fun _ k hk => absurd hk (List.not_mem_nil k)),
   rfl⟩

/-! ## C4: the ambiguity pass (recipe.go 604–644) and `togo` (recipe.go
529–548)

`ambiguous(u)` walks a node's edges with a running pointer `le` to the last
surviving non-empty-recipe edge; edges are addressed by index so that the
`le.togo = true` write is visible in the final array.  The recursion into
child nodes (`g.ambiguous(e.v)`) applies the same pass to each child and does
not affect the decision at this node, so the embedding is node-local.  `le`
is never nil-ruled here: every edge created by `applyrules` carries a rule,
so the `le.r == nil` disjunct of recipe.go 616 is dropped. -/

/-- An edge as the ambiguity pass sees it. -/
structure AmbEdge where
  togo : Bool
  r : MkRule

instance : Inhabited AmbEdge := ⟨⟨false, default⟩⟩

/-- State of the scan: edge array, index of `le`, and the `bad` flag. -/
structure AmbSt where
  edges : List AmbEdge
  le : Option Nat
  bad : Bool

/-- The loop body of `ambiguous` for the edge at index `i` (recipe.go
607–638). -/
def ambiguousStep (st : AmbSt) (i : Nat) : AmbSt :=
  let e := st.edges.getD i default
  if e.r.recipe = [] then st
  else
    match st.le with
    | none => { st with le := some i }
    | some li =>
      let le := st.edges.getD li default
      let pref :=
        if ¬ le.r.equivRecipe e.r then
          if le.r.isMeta ∧ ¬ e.r.isMeta then
            (st.edges.set li { le with togo := true }, some i, false)
          else if ¬ le.r.isMeta ∧ e.r.isMeta then
            (st.edges.set i { e with togo := true }, some li, true)
          else (st.edges, some li, false)
        else (st.edges, some li, false)
      let edges := pref.1
      let le2 := pref.2.1
      let cont := pref.2.2
      if cont then { edges := edges, le := le2, bad := st.bad }
      else
        let lenew := edges.getD (le2.getD 0) default
        if ¬ lenew.r.equivRecipe e.r then { edges := edges, le := le2, bad := true }
        else { edges := edges, le := le2, bad := st.bad }

/-- The full scan over a node's edges. -/
def ambiguousScan (edges : List AmbEdge) : AmbSt :=
  (List.range edges.length).foldl ambiguousStep ⟨edges, none, false⟩

/-- `ambiguous` at one node followed by `g.togo(u)`: `error` models the fatal
`mkError` on ambiguous recipes, otherwise the node keeps its non-`togo`
edges. -/
def ambiguousNode (edges : List AmbEdge) : Except Unit (List AmbEdge) :=
  let st := ambiguousScan edges
  if st.bad then Except.error () else Except.ok (st.edges.filter (fun e => !e.togo))

/-- Boolean equality tests are symmetric. -/
theorem beqComm {α : Type} [BEq α] [LawfulBEq α] (a b : α) : (a == b) = (b == a) := by
  cases h : a == b
  · cases h' : b == a
    · rfl
    · rw [eq_of_beq h'] at h
      rw [beq_self_eq_true] at h
      cases h
  · rw [eq_of_beq h, beq_self_eq_true]

/-- `equivRecipe` is symmetric. -/
theorem equivRecipe_comm (r1 r2 : MkRule) : r1.equivRecipe r2 = r2.equivRecipe r1 := by
  unfold MkRule.equivRecipe
  rw [beqComm r1.recipe r2.recipe, beqComm r1.shell r2.shell]

/-- A concrete rule whose recipe is empty (an edge the ambiguity pass
skips). -/
def c4ConcreteEmpty : MkRule :=
  { targets := [⟨false, word "t", none⟩], prereqs := [word "p"], shell := [],
    recipe := [], isMeta := false, attrRegex := false }

/-- A meta rule with a non-empty recipe. -/
def c4Meta : MkRule :=
  { targets := [⟨true, word "%", some (fun t => some [t, t])⟩], prereqs := [],
    shell := [], recipe := word "x", isMeta := true, attrRegex := false }

/-- C4: the claim fails when the concrete rule's recipe is empty.  The rules
are not recipe-equivalent (`""` vs `"x"`), exactly one concrete and one meta
rule match, yet the meta edge is *not* marked `togo`: the empty-recipe
concrete edge is skipped by the pass (recipe.go 613), both edges survive, and
no error is raised — contradicting "the concrete rule's edge is the one that
survives: the meta-rule edge is marked togo and removed". -/
theorem c4_counterexample :
    c4ConcreteEmpty.equivRecipe c4Meta = false ∧
    c4ConcreteEmpty.isMeta = false ∧ c4Meta.isMeta = true ∧
    ambiguousNode [⟨false, c4ConcreteEmpty⟩, ⟨false, c4Meta⟩]
      = Except.ok [⟨false, c4ConcreteEmpty⟩, ⟨false, c4Meta⟩] := by
  refine ⟨rfl, rfl, rfl, rfl⟩

/-- C4 (amended): for a target matched by exactly one concrete and one meta
rule, both with *non-empty* recipes that are not equivalent, the concrete
edge survives: the meta edge is marked `togo` and removed and no ambiguity
error is raised — in either edge order. -/
theorem c4_concrete_preferred (rc rm : MkRule)
    (hc : rc.isMeta = false) (hm : rm.isMeta = true)
    (hrc : rc.recipe ≠ []) (hrm : rm.recipe ≠ [])
    (hne : rc.equivRecipe rm = false) :
    ambiguousNode [⟨false, rc⟩, ⟨false, rm⟩] = Except.ok [⟨false, rc⟩] ∧
    ambiguousNode [⟨false, rm⟩, ⟨false, rc⟩] = Except.ok [⟨false, rc⟩] := by
  have hne' : rm.equivRecipe rc = false := by rw [equivRecipe_comm]; exact hne
  have hrange : List.range 2 = [0, 1] := rfl
  have hself : ∀ r : MkRule, r.equivRecipe r = true := fun r => by
    simp [MkRule.equivRecipe]
  constructor
  · simp only [ambiguousNode, ambiguousScan, List.length_cons, List.length_nil,
      Nat.zero_add, hrange, List.foldl_cons, List.foldl_nil]
    simp [ambiguousStep, hrc, hrm, hne, hne', hc, hm, hself]
  · simp only [ambiguousNode, ambiguousScan, List.length_cons, List.length_nil,
      Nat.zero_add, hrange, List.foldl_cons, List.foldl_nil]
    simp [ambiguousStep, hrc, hrm, hne, hne', hc, hm, hself]

/-- A concrete rule with a non-empty recipe for the witness. -/
def c4Concrete : MkRule :=
  { targets := [⟨false, word "t", none⟩], prereqs := [], shell := [],
    recipe := word "y", isMeta := false, attrRegex := false }

/-- Witness for `c4_concrete_preferred` at concrete rules. -/
theorem c4_concrete_preferred_witness :
    ambiguousNode [⟨false, c4Concrete⟩, ⟨false, c4Meta⟩] = Except.ok [⟨false, c4Concrete⟩] ∧
    ambiguousNode [⟨false, c4Meta⟩, ⟨false, c4Concrete⟩] = Except.ok [⟨false, c4Concrete⟩] :=
  c4_concrete_preferred c4Concrete c4Meta rfl rfl (by decide) (by decide) rfl

/-! ## C3: graph construction (`applyrules`, recipe.go 423–526)

The builder state carries the node set in creation order, the created edges
tagged by their source node, the per-rule application counter `rulecnt`
(shared mutable slice in Go, threaded here), and an instrumentation log
recording, for every rule application, the rule index together with the value
of `rulecnt[k]` *before* the increment — i.e. how many applications of that
rule are already open on the current dependency chain.  Fuel bounds the
recursion; `none` models divergence or a panic inside a prerequisite
expansion. -/

/-- `maxRuleCnt` (mk.go 67–68): "The maximum number of times an rule may be
applied." -/
def maxRuleCnt : Nat := 1

/-- An edge recorded during graph construction. -/
structure AREdge where
  v : Option Str
  rIdx : Nat
  stem : Str
  rmatches : List Str

/-- Graph-builder state. -/
structure BuildSt where
  nodes : List Str
  edges : List (Str × AREdge)
  rulecnt : List Nat
  log : List (Nat × Nat)

/-- The `match_vars` map `stem0 ↦ matches[0], …` (recipe.go 493–497). -/
def stemVars (rmatches : List Str) : Vars := fun n =>
  (List.range rmatches.length).foldl
    (fun acc i => if n = word ("stem" ++ toString i) then some [rmatches.getD i []] else acc)
    none

/-- `applyrules` (recipe.go 423–526).  Concrete rules from the literal index
are tried first (skipped while `rulecnt[k] > maxRuleCnt`), then every
meta-rule (skipped while `rulecnt[k] >= maxRuleCnt`); rules with empty recipe
and no prerequisites are skipped; each application increments `rulecnt[k]`
around the recursive construction of its prerequisites and decrements it
afterwards.  Suffix meta-rules expand prerequisite templates with
`expandSuffixes` on the captured stem (`mat[1]`, a panic — `none` — if the
match has no group); regex meta-rules use `expandRecipeSigils` over the
`stem<i>` variables. -/
def applyrules (fuel : Nat) (rs : RuleSetM) (target : Str) (st : BuildSt) :
    Option BuildSt :=
  match fuel with
  | 0 => none
  | fuel + 1 =>
    if target ∈ st.nodes then some st
    else
      let st : BuildSt := { st with nodes := st.nodes ++ [target] }
      match (rs.targetRules target).foldlM
          (fun (st : BuildSt) k =>
            if st.rulecnt.getD k 0 > maxRuleCnt then some st
            else
              let r := rs.rules.getD k default
              if r.isMeta then some st
              else if r.recipe = [] ∧ r.prereqs = [] then some st
              else
                let st : BuildSt := { st with
                  log := st.log ++ [(k, st.rulecnt.getD k 0)],
                  rulecnt := st.rulecnt.set k (st.rulecnt.getD k 0 + 1) }
                match (if r.prereqs = [] then
                    some { st with edges := st.edges ++ [(target, ⟨none, k, [], []⟩)] }
                  else
                    r.prereqs.foldlM
                      (fun (st : BuildSt) p => do
                        let st ← applyrules fuel rs p st
                        some { st with edges := st.edges ++ [(target, ⟨some p, k, [], []⟩)] })
                      st) with
                | none => none
                | some st =>
                  some { st with rulecnt := st.rulecnt.set k (st.rulecnt.getD k 0 - 1) })
          st with
      | none => none
      | some st =>
        (List.range rs.rules.length).foldlM
          (fun (st : BuildSt) k =>
            if st.rulecnt.getD k 0 ≥ maxRuleCnt then some st
            else
              let r := rs.rules.getD k default
              if ¬ r.isMeta then some st
              else if r.recipe = [] ∧ r.prereqs = [] then some st
              else
                r.targets.foldlM
                  (fun (st : BuildSt) tp =>
                    match tp.matchTarget target with
                    | none => some st
                    | some mat => do
                      let sm ←
                        if r.attrRegex then some (([] : Str), mat)
                        else
                          match mat with
                          | _ :: s :: _ => some (s, ([] : List Str))
                          | _ => none
                      let stem := sm.1
                      let rmatches := sm.2
                      let st : BuildSt := { st with
                        log := st.log ++ [(k, st.rulecnt.getD k 0)],
                        rulecnt := st.rulecnt.set k (st.rulecnt.getD k 0 + 1) }
                      match (if r.prereqs = [] then
                          some { st with
                            edges := st.edges ++ [(target, ⟨none, k, stem, rmatches⟩)] }
                        else
                          r.prereqs.foldlM
                            (fun (st : BuildSt) ptmpl => do
                              let prereq ←
                                if r.attrRegex then
                                  expandRecipeSigils ptmpl (stemVars rmatches)
                                else
                                  expandSuffixes ptmpl stem
                              let st ← applyrules fuel rs prereq st
                              some { st with
                                edges := st.edges ++
                                  [(target, ⟨some prereq, k, stem, rmatches⟩)] })
                            st) with
                      | none => none
                      | some st =>
                        some { st with
                          rulecnt := st.rulecnt.set k (st.rulecnt.getD k 0 - 1) })
                  st)
          st

/-- The ruleset of the failing input: one concrete rule
`a b : b` with a non-empty recipe. -/
def c3rule : MkRule :=
  { targets := [⟨false, word "a", none⟩, ⟨false, word "b", none⟩],
    prereqs := [word "b"], shell := [], recipe := word "r",
    isMeta := false, attrRegex := false }

/-- The failing input's rule set, built through `add`. -/
def c3rs : RuleSetM := emptyRuleSetM.add c3rule

/-- The initial builder state of `buildgraph` (recipe.go 407–412):
`rulecnt := make([]int, len(rs.rules))`. -/
def c3init : BuildSt := ⟨[], [], List.replicate c3rs.rules.length 0, []⟩

/-- C3: a concrete rule *is* used twice along a single dependency chain.
Building target `a` with the rule `a b : b` applies rule 0 at `a`
(`rulecnt[0]` goes 0 → 1) and, while that application is still open, applies
it again at the prerequisite node `b` — the log records the application with
pre-increment count 1.  The concrete-rule guard `rulecnt[k] > maxRuleCnt`
(recipe.go 436) only blocks a *third* use, while the meta-rule guard
`rulecnt[k] >= maxRuleCnt` (recipe.go 467) blocks the second, contradicting
the claim (and mk.go 67's own comment) for concrete rules. -/
theorem c3_concrete_rule_reused :
    (applyrules 10 c3rs (word "a") c3init).map BuildSt.log = some [(0, 0), (0, 1)] ∧
    (0, 1) ∈ [(0, 0), (0, 1)] := by
  refine ⟨rfl, by decide⟩

end Mk
